import Mathlib

/-!
Shallow embedding of the fork-aware transaction pool core
(`tx_mem_pool.rs`, `multi_view_listener.rs`, `view.rs`).

Machine integers (`u64`, `usize`) are modelled as `Nat`; the only arithmetic
performed on them (`validated_at + TXMEMPOOL_REVALIDATION_PERIOD`) operates on
stored block numbers, far below `2^64`, so wrap-around is unreachable and not
modelled.  Hash types (`TxHash`, `BlockHash`) are opaque fixed-width values,
modelled as `Nat`.  `HashMap`/`HashSet` are modelled as association lists /
membership lists; their iteration order is unspecified in the source, the list
order stands in for it.
-/

abbrev TxHash := Nat

abbrev BlockHash := Nat

abbrev Tx := Nat

/-- Rust `sp_blockchain::HashAndNumber`: a `(BlockHash, BlockNumber)` pair. -/
structure HashAndNumber where
  hash : BlockHash
  number : Nat
deriving DecidableEq

/-- Rust `TransactionSource` (`{External, Local, InBlock}`). `Local` is named
`localTx` because `local` is a Lean keyword. -/
inductive Source
  | external
  | localTx
  | inBlock
deriving DecidableEq

/-- Rust `InvalidTransaction`, with `Future` distinguished from every other
reason (the other reasons are collapsed into a code). -/
inductive InvalidTransaction
  | future
  | other (code : Nat)
deriving DecidableEq

/-- Outcome of one `api.validate_transaction` call, i.e. the Rust type
`Result<Result<ValidTransaction, TransactionValidityError>, ApiError>`
flattened into one inductive:
`apiError` is `Err(_)`, `okValid` is `Ok(Ok(_))` (payload opaque),
`okInvalid k` is `Ok(Err(Invalid(k)))`, `okUnknown` is `Ok(Err(Unknown(_)))`. -/
inductive ValidationResult
  | apiError (e : Nat)
  | okValid (v : Nat)
  | okInvalid (k : InvalidTransaction)
  | okUnknown (code : Nat)
deriving DecidableEq

/-- The Chain API as consumed by the pool: `hash_and_length`'s hash component
and a deterministic `validate_transaction` oracle. -/
structure ChainApiModel where
  hashOf : Tx → TxHash
  validate : BlockHash → Source → Tx → ValidationResult

/-! ## Multi-view listener (`multi_view_listener.rs`) -/

/-- Rust `TransactionStatus` (`sc_transaction_pool_api`). -/
inductive Status
  | future
  | ready
  | broadcast (peer : Nat)
  | inBlock (b : BlockHash) (i : Nat)
  | retracted (b : BlockHash)
  | finalityTimeout (b : BlockHash)
  | finalized (b : BlockHash) (i : Nat)
  | usurped (h : TxHash)
  | dropped
  | invalid
deriving DecidableEq

/-- Rust `ControllerCommand`.  `AddView` carries a stream in the source; in
this embedding the stream's events are delivered as separate inputs (see
`Input`), so only the view hash is kept here. -/
inductive ControllerCommand
  | addView (h : BlockHash)
  | removeView (h : BlockHash)
  | invalidateTransaction
  | finalizeTransaction (b : BlockHash) (i : Nat)
deriving DecidableEq

/-- Rust `ExternalWatcherContext`.  `views` models the key set of the fused
`StreamMap` (the streams' contents are delivered via `Input.viewEvent`);
`inblock` and `views_keeping_tx_valid` are `HashSet`s modelled as lists. -/
structure ExternalWatcherContext where
  tx_hash : TxHash
  views : List BlockHash
  terminate : Bool
  future_seen : Bool
  ready_seen : Bool
  broadcast_seen : Bool
  inblock : List BlockHash
  views_keeping_tx_valid : List BlockHash
deriving DecidableEq

/-- `HashSet::insert`: returns the new set and whether the element is new. -/
def hsInsert (x : Nat) (s : List Nat) : List Nat × Bool :=
  if x ∈ s then (s, false) else (x :: s, true)

namespace ExternalWatcherContext

/-- Rust `ExternalWatcherContext::new`: all flags false, empty sets, and the
fused stream map pre-seeded with a pending stream at `Default::default()`
(the zero hash), hence `views = [0]`. -/
def new (tx_hash : TxHash) : ExternalWatcherContext :=
  { tx_hash := tx_hash
    views := [0]
    terminate := false
    future_seen := false
    ready_seen := false
    broadcast_seen := false
    inblock := []
    views_keeping_tx_valid := [] }

/-- Rust `ExternalWatcherContext::handle` (lines 123-172).  Returns
`some (emit, ctx')` for the normal paths; `none` models the
`Retracted` branch, which executes `panic!("retracted? shall not happen")`
and aborts instead of returning. -/
def handle (ctx : ExternalWatcherContext) (status : Status) (hash : BlockHash) :
    Option (Bool × ExternalWatcherContext) :=
  match status with
  | .future =>
      let ctx := { ctx with views_keeping_tx_valid :=
        (hsInsert hash ctx.views_keeping_tx_valid).1 }
      if ctx.ready_seen || ctx.future_seen then some (false, ctx)
      else some (true, { ctx with future_seen := true })
  | .ready =>
      let ctx := { ctx with views_keeping_tx_valid :=
        (hsInsert hash ctx.views_keeping_tx_valid).1 }
      if ctx.ready_seen then some (false, ctx)
      else some (true, { ctx with ready_seen := true })
  | .broadcast _ =>
      if !ctx.broadcast_seen then some (true, { ctx with broadcast_seen := true })
      else some (false, ctx)
  | .inBlock b _ =>
      let r := hsInsert b ctx.inblock
      some (r.2, { ctx with inblock := r.1 })
  | .retracted _ => none
  | .finalityTimeout _ => some (true, ctx)
  | .finalized _ _ => some (true, { ctx with terminate := true })
  | .usurped _ => some (false, ctx)
  | .dropped => some (false, ctx)
  | .invalid => some (false, ctx)

/-- Decidable `HashSet::is_disjoint` on the list model. -/
def disjointB (a b : List Nat) : Bool :=
  a.all (fun x => !(b.contains x))

/-- Rust `ExternalWatcherContext::handle_invalidate_transaction`
(lines 174-189): emit `Invalid` and set `terminate` iff
`views_keeping_tx_valid` is disjoint from the current stream-map keys. -/
def handle_invalidate_transaction (ctx : ExternalWatcherContext) :
    Bool × ExternalWatcherContext :=
  if disjointB ctx.views_keeping_tx_valid ctx.views then
    (true, { ctx with terminate := true })
  else
    (false, ctx)

/-- Rust `ExternalWatcherContext::add_stream`: `StreamMap::insert` (key set
gains `block_hash` if absent). -/
def add_stream (ctx : ExternalWatcherContext) (block_hash : BlockHash) :
    ExternalWatcherContext :=
  { ctx with views := (hsInsert block_hash ctx.views).1 }

/-- Rust `ExternalWatcherContext::remove_view`: `StreamMap::remove`. -/
def remove_view (ctx : ExternalWatcherContext) (block_hash : BlockHash) :
    ExternalWatcherContext :=
  { ctx with views := ctx.views.filter (fun h => h ≠ block_hash) }

end ExternalWatcherContext

/-- One input consumed by the watcher loop in
`MultiViewListener::create_external_watcher_for_tx` (lines 229-273): either a
`(view_hash, status)` pair from the merged per-view streams, or a command from
the controller channel.  A run over an input list models one interleaving of
the `tokio::select!` loop. -/
inductive Input
  | viewEvent (hash : BlockHash) (status : Status)
  | command (c : ControllerCommand)
deriving DecidableEq

/-- State in which a run of the watcher loop ends: still live (possibly
terminated via the `terminate` flag), or aborted by the `Retracted` panic. -/
inductive RunState
  | live (ctx : ExternalWatcherContext)
  | panicked (ctx : ExternalWatcherContext)
deriving DecidableEq

/-- One iteration of the `tokio::select!` body: `none` is the `Retracted`
panic; `some (os, ctx')` is the updated context together with the emitted
status, if any. -/
def stepOf (ctx : ExternalWatcherContext) (i : Input) :
    Option (Option Status × ExternalWatcherContext) :=
  match i with
  | .viewEvent h s =>
      match ctx.handle s h with
      | none => none
      | some (true, c') => some (some s, c')
      | some (false, c') => some (none, c')
  | .command (.addView h) => some (none, ctx.add_stream h)
  | .command (.removeView h) => some (none, ctx.remove_view h)
  | .command .invalidateTransaction =>
      let r := ctx.handle_invalidate_transaction
      some (if r.1 then some Status.invalid else none, r.2)
  | .command (.finalizeTransaction b i) =>
      some (some (Status.finalized b i), { ctx with terminate := true })

/-- The unfold loop of `create_external_watcher_for_tx` driven by an input
trace: each unfold step first checks `terminate` (returning `None`, i.e.
ending the stream), then loops over inputs until one produces an emission.
Returns the emitted statuses in order and the final run state. -/
def runFrom (ctx : ExternalWatcherContext) : List Input → List Status × RunState
  | [] => ([], .live ctx)
  | i :: rest =>
      if ctx.terminate then ([], .live ctx)
      else
        match stepOf ctx i with
        | none => ([], .panicked ctx)
        | some (none, c') => runFrom c' rest
        | some (some s, c') =>
            let r := runFrom c' rest
            (s :: r.1, r.2)

/-- Per-transaction controller map of `MultiViewListener`: for each `TxHash`
with a live controller, the list of commands delivered into its (unbounded,
never-closed in this model) channel. -/
structure ListenerState where
  controllers : List (TxHash × List ControllerCommand)
deriving DecidableEq

namespace MultiViewListener

/-- Rust `MultiViewListener::invalidate_transactions` (lines 316-331): for
each hash that has a controller, send `InvalidateTransaction` into its
channel.  (The send-failure path removes the controller; channels are never
closed in this model.) -/
def invalidate_transactions (l : ListenerState) (invalid_hashes : List TxHash) :
    ListenerState :=
  ⟨invalid_hashes.foldl
    (fun cs h =>
      if cs.any (fun p => p.1 = h) then
        cs.map (fun p =>
          if p.1 = h then (p.1, p.2 ++ [ControllerCommand.invalidateTransaction]) else p)
      else cs)
    l.controllers⟩

end MultiViewListener

/-! ## Memory pool (`tx_mem_pool.rs`) -/

/-- Rust constant `TXMEMPOOL_REVALIDATION_PERIOD` (blocks). -/
def TXMEMPOOL_REVALIDATION_PERIOD : Nat := 10

/-- Rust constant `TXMEMPOOL_MAX_REVALIDATION_BATCH_SIZE`. -/
def TXMEMPOOL_MAX_REVALIDATION_BATCH_SIZE : Nat := 1000

/-- Rust `TxInMemPool`: the `AtomicU64` field `validated_at` is modelled as a
plain `Nat` (single revalidation pass, no concurrent access modelled). -/
structure TxInMemPool where
  watched : Bool
  tx : Tx
  source : Source
  validated_at : Nat
deriving DecidableEq

/-- The `transactions: HashMap<TxHash, Arc<TxInMemPool>>` map, as an
association list. -/
abbrev MempoolMap := List (TxHash × TxInMemPool)

/-- Association-list lookup (HashMap `get`). -/
def alookup (k : Nat) : List (Nat × TxInMemPool) → Option TxInMemPool
  | [] => none
  | (k', v) :: rest => if k = k' then some v else alookup k rest

/-- HashMap `insert` on the association-list model: the new binding replaces
any existing binding of the same key. -/
def mapInsert (k : TxHash) (v : TxInMemPool) (m : MempoolMap) : MempoolMap :=
  (k, v) :: m.filter (fun p => p.1 ≠ k)

namespace TxInMemPool

/-- Rust `TxInMemPool::new_unwatched`. -/
def new_unwatched (source : Source) (tx : Tx) : TxInMemPool :=
  { watched := false, tx := tx, source := source, validated_at := 0 }

/-- Rust `TxInMemPool::new_watched`. -/
def new_watched (source : Source) (tx : Tx) : TxInMemPool :=
  { watched := true, tx := tx, source := source, validated_at := 0 }

end TxInMemPool

namespace TxMemPool

/-- Rust `TxMemPool::push_unwatched` (lines 140-144). -/
def push_unwatched (api : ChainApiModel) (source : Source) (xt : Tx)
    (m : MempoolMap) : MempoolMap :=
  mapInsert (api.hashOf xt) (TxInMemPool.new_unwatched source xt) m

/-- Rust `TxMemPool::push_watched` (lines 159-163). -/
def push_watched (api : ChainApiModel) (source : Source) (xt : Tx)
    (m : MempoolMap) : MempoolMap :=
  mapInsert (api.hashOf xt) (TxInMemPool.new_watched source xt) m

/-- Rust `TxMemPool::remove_watched` (lines 184-186): retain every entry whose
body differs from `xt` (the `watched` flag is not consulted). -/
def remove_watched (xt : Tx) (m : MempoolMap) : MempoolMap :=
  m.filter (fun p => p.2.tx ≠ xt)

/-- Stable insertion step for sorting by `validated_at` ascending
(`itertools::sorted_by_key`). -/
def insertByVA (x : TxHash × TxInMemPool) : MempoolMap → MempoolMap
  | [] => [x]
  | y :: ys =>
      if x.2.validated_at ≤ y.2.validated_at then x :: y :: ys
      else y :: insertByVA x ys

/-- Sort by `validated_at` ascending. -/
def sortByVA : MempoolMap → MempoolMap
  | [] => []
  | x :: xs => insertByVA x (sortByVA xs)

/-- The batch selected by `TxMemPool::revalidate` (lines 195-212): entries
with `validated_at + TXMEMPOOL_REVALIDATION_PERIOD < finalized.number`,
sorted by `validated_at` ascending, first
`TXMEMPOOL_MAX_REVALIDATION_BATCH_SIZE` taken. -/
def revalidationInput (finalized_block : HashAndNumber) (m : MempoolMap) :
    MempoolMap :=
  ((sortByVA (m.filter (fun xt =>
      xt.2.validated_at + TXMEMPOOL_REVALIDATION_PERIOD < finalized_block.number))).take
    TXMEMPOOL_MAX_REVALIDATION_BATCH_SIZE)

/-- The match of `TxMemPool::revalidate` (lines 230-244) deciding eviction:
`Ok(Ok(_))` and `Ok(Err(Invalid(Future)))` are kept; `Err(_)`,
`Ok(Err(Unknown(_)))` and every other `Ok(Err(Invalid(_)))` are evicted. -/
def mempoolEvicts : ValidationResult → Bool
  | .okValid _ => false
  | .okInvalid .future => false
  | .okInvalid (.other _) => true
  | .okUnknown _ => true
  | .apiError _ => true

/-- Result of `TxMemPool::revalidate` (lines 191-253).  In the source the
batch entries are `Arc`-shared with the map and their `validated_at` is stored
to `finalized_block.number` in place (regardless of the verdict); the
functional model returns the updated map alongside the invalid hashes. -/
structure RevalidateOutcome where
  transactions : MempoolMap
  invalid_hashes : List TxHash
deriving DecidableEq

/-- Rust `TxMemPool::revalidate`. -/
def revalidate (api : ChainApiModel) (finalized_block : HashAndNumber)
    (m : MempoolMap) : RevalidateOutcome :=
  let input := revalidationInput finalized_block m
  let batchKeys := input.map Prod.fst
  let validation_results :=
    input.map (fun p => (p.1, api.validate finalized_block.hash p.2.source p.2.tx))
  let transactions :=
    m.map (fun p =>
      if p.1 ∈ batchKeys then (p.1, { p.2 with validated_at := finalized_block.number })
      else p)
  let invalid_hashes :=
    (validation_results.filter (fun q => mempoolEvicts q.2)).map Prod.fst
  ⟨transactions, invalid_hashes⟩

/-- Result of `TxMemPool::purge_transactions`. -/
structure PurgeOutcome where
  transactions : MempoolMap
  listener : ListenerState
  droppedInvalidateArg : List TxHash
deriving DecidableEq

/-- Rust `TxMemPool::purge_transactions` (lines 267-280): revalidate, remove
each invalid hash from the map, then evaluate
`self.listener.invalidate_transactions(invalid_hashes)` WITHOUT `.await`: the
future is constructed and immediately dropped, so its body never runs and the
listener state is unchanged.  The argument of the dropped call is recorded in
`droppedInvalidateArg`. -/
def purge_transactions (api : ChainApiModel) (listener : ListenerState)
    (finalized_block : HashAndNumber) (m : MempoolMap) : PurgeOutcome :=
  let r := revalidate api finalized_block m
  let transactions :=
    r.invalid_hashes.foldl (fun acc i => acc.filter (fun p => p.1 ≠ i)) r.transactions
  ⟨transactions, listener, r.invalid_hashes⟩

end TxMemPool

/-! ## View revalidation (`view.rs`) -/

/-- Rust `graph::ValidatedTransaction::valid_at` record as built in
`View::revalidate_later` (lines 251-262).  The source field `at` is renamed
`at_block` because `at` is a Lean keyword. -/
structure ValidatedTx where
  at_block : Nat
  hash : TxHash
  source : Source
  tx : Tx
  bytes : Nat
  validity : Nat
deriving DecidableEq

/-- Rust `RevalidationResult` of `view.rs`. -/
structure RevalidationResult where
  revalidated : List (TxHash × ValidatedTx)
  invalid_hashes : List TxHash
deriving DecidableEq

/-- One ready-pool entry consumed by `View::revalidate_later`
(`ready_by_hash` result): source, body and encoded length. -/
structure ReadyTx where
  source : Source
  tx : Tx
  bytes : Nat
deriving DecidableEq

namespace View

/-- The classification loop of `View::revalidate_later` (lines 242-274):
`Ok(Err(Invalid(_)))` and transport errors are pushed to `invalid_hashes`,
`Ok(Err(Unknown(_)))` is skipped, `Ok(Ok(validity))` is inserted into
`revalidated` at the view's block number. -/
def classifyRevalidationResults (at_number : Nat) :
    List (ValidationResult × TxHash × ReadyTx) → RevalidationResult
  | [] => ⟨[], []⟩
  | (res, ext_hash, ext) :: rest =>
      let r := classifyRevalidationResults at_number rest
      match res with
      | .okInvalid _ => ⟨r.revalidated, ext_hash :: r.invalid_hashes⟩
      | .okUnknown _ => r
      | .okValid validity =>
          ⟨(ext_hash,
            { at_block := at_number, hash := ext_hash, source := ext.source,
              tx := ext.tx, bytes := ext.bytes, validity := validity }) :: r.revalidated,
            r.invalid_hashes⟩
      | .apiError _ => ⟨r.revalidated, ext_hash :: r.invalid_hashes⟩

end View

/-! ## Concrete fixtures -/

/-- Oracle whose every validation verdict is `Invalid` with a non-`Future`
reason (e.g. `Stale`); transaction hashing is the identity. -/
def apiStale : ChainApiModel := ⟨id, fun _ _ _ => .okInvalid (.other 0)⟩

/-- Oracle whose every validation verdict is `Unknown`. -/
def apiUnknown : ChainApiModel := ⟨id, fun _ _ _ => .okUnknown 0⟩

/-- Oracle whose every validation verdict is `Ok(ValidTransaction)`. -/
def apiValid : ChainApiModel := ⟨id, fun _ _ _ => .okValid 0⟩

/-- A finalized block with number 11. -/
def fb11 : HashAndNumber := ⟨1, 11⟩

/-- Listener with one controller registered for transaction hash 3, with no
commands delivered yet. -/
def listenerFor3 : ListenerState := ⟨[(3, [])]⟩

/-- Listener with no controllers. -/
def listenerEmpty : ListenerState := ⟨[]⟩

/-- Mempool holding one watched transaction (hash 3) never revalidated. -/
def poolWatched3 : MempoolMap := [(3, ⟨true, 3, Source.external, 0⟩)]

/-- Mempool holding one unwatched transaction (hash 3) never revalidated. -/
def poolUnwatched3 : MempoolMap := [(3, ⟨false, 3, Source.external, 0⟩)]

/-- Mempool holding one unwatched transaction (hash 3) last revalidated at
block number 5. -/
def poolRecent3 : MempoolMap := [(3, ⟨false, 3, Source.external, 5⟩)]

/-- C1: `purge_transactions` on a mempool whose single watched transaction is
evicted (verdict `Invalid(Stale)`) removes the hash from the transactions map,
but the listener state is unchanged — the
`self.listener.invalidate_transactions(invalid_hashes)` future is dropped
without `.await`, so no `InvalidateTransaction` command reaches the registered
controller, although a run of `invalidate_transactions` on the same argument
would have delivered one. -/
theorem C1_purge_does_not_notify_listener :
    (TxMemPool.purge_transactions apiStale listenerFor3 fb11 poolWatched3).transactions
      = [] ∧
    (TxMemPool.purge_transactions apiStale listenerFor3 fb11 poolWatched3).droppedInvalidateArg
      = [3] ∧
    (TxMemPool.purge_transactions apiStale listenerFor3 fb11 poolWatched3).listener
      = listenerFor3 ∧
    MultiViewListener.invalidate_transactions listenerFor3 [3]
      = ⟨[(3, [ControllerCommand.invalidateTransaction])]⟩ ∧
    listenerFor3 ≠ ⟨[(3, [ControllerCommand.invalidateTransaction])]⟩ := by
  refine ⟨rfl, rfl, rfl, rfl, ?_⟩
  decide

/-- C2: a `Retracted` status arriving from any view stream makes the
per-watcher event handler abort (the `panic!` branch, modelled as `none`)
instead of logging and continuing; the watcher run ends in the `panicked`
state with nothing emitted. -/
theorem C2_retracted_panics (t b h : Nat) :
    (ExternalWatcherContext.new t).handle (Status.retracted b) h = none ∧
    runFrom (ExternalWatcherContext.new t) [Input.viewEvent h (Status.retracted b)]
      = ([], RunState.panicked (ExternalWatcherContext.new t)) := by
  exact ⟨rfl, rfl⟩

/-- C3 counterexample: a transaction whose validation at the finalized block
returns `Ok(Err(Unknown(_)))` IS removed from the mempool by
`purge_transactions`, contradicting the claim that `Unknown` never causes
removal from the MP. -/
theorem C3_counterexample :
    alookup 3 poolUnwatched3 = some ⟨false, 3, Source.external, 0⟩ ∧
    (TxMemPool.purge_transactions apiUnknown listenerEmpty fb11 poolUnwatched3).transactions
      = [] := by
  exact ⟨rfl, rfl⟩

/-- C4 counterexample: an entry revalidated at block number 5 is not selected
for revalidation when finalizing at number 11 (5 + 10 < 11 fails), so it
survives `purge_transactions` with `validated_at = 5 ≠ 11`, contradicting the
claim that every surviving entry has `validated_at = finalized.number`. -/
theorem C4_counterexample :
    alookup 3 (TxMemPool.purge_transactions apiValid listenerEmpty fb11 poolRecent3).transactions
      = some ⟨false, 3, Source.external, 5⟩ ∧
    (5 : Nat) ≠ fb11.number := by
  refine ⟨rfl, ?_⟩
  decide

/-- C8 counterexample: pushing the same transaction watched after unwatched
DOES replace the entry (the `watched` flag flips to the later path),
contradicting the claim that a re-submission through the other path leaves the
entry in place. -/
theorem C8_counterexample :
    alookup 7 (TxMemPool.push_unwatched apiValid Source.external 7 [])
      = some ⟨false, 7, Source.external, 0⟩ ∧
    alookup 7
        (TxMemPool.push_watched apiValid Source.external 7
          (TxMemPool.push_unwatched apiValid Source.external 7 []))
      = some ⟨true, 7, Source.external, 0⟩ ∧
    (⟨true, 7, Source.external, 0⟩ : TxInMemPool) ≠ ⟨false, 7, Source.external, 0⟩ := by
  refine ⟨rfl, rfl, ?_⟩
  decide

/-! ## Helper lemmas: multi-view listener -/

namespace ExternalWatcherContext

theorem disjointB_eq_false_of_mem {a b : List Nat} {h : Nat}
    (ha : h ∈ a) (hb : h ∈ b) : disjointB a b = false := by
  unfold disjointB
  rw [Bool.eq_false_iff]
  intro hall
  rw [List.all_eq_true] at hall
  have := hall h ha
  rw [Bool.not_eq_true', Bool.eq_false_iff] at this
  exact this (List.elem_iff.mpr hb)

theorem disjointB_eq_true_of_forall {a b : List Nat}
    (hd : ∀ h, h ∈ a → h ∉ b) : disjointB a b = true := by
  unfold disjointB
  rw [List.all_eq_true]
  intro h ha
  rw [Bool.not_eq_true', Bool.eq_false_iff]
  intro hc
  exact hd h ha (List.elem_iff.mp hc)

theorem handle_invalidate_of_not_disjoint {ctx : ExternalWatcherContext} {h : Nat}
    (ha : h ∈ ctx.views_keeping_tx_valid) (hb : h ∈ ctx.views) :
    ctx.handle_invalidate_transaction = (false, ctx) := by
  unfold handle_invalidate_transaction
  rw [disjointB_eq_false_of_mem ha hb]
  simp

theorem handle_invalidate_of_disjoint {ctx : ExternalWatcherContext}
    (hd : ∀ h, h ∈ ctx.views_keeping_tx_valid → h ∉ ctx.views) :
    ctx.handle_invalidate_transaction = (true, { ctx with terminate := true }) := by
  unfold handle_invalidate_transaction
  rw [disjointB_eq_true_of_forall hd]
  simp

end ExternalWatcherContext

theorem runFrom_of_terminate {ctx : ExternalWatcherContext}
    (h : ctx.terminate = true) (inputs : List Input) :
    runFrom ctx inputs = ([], RunState.live ctx) := by
  cases inputs with
  | nil => rfl
  | cons i rest => simp [runFrom, h]

/-- C5: while some view that reported `Future`/`Ready` is still among the
merged stream-map keys, an `InvalidateTransaction` command is absorbed with no
emission and no state change (the run continues exactly as without it); and
when `views_keeping_tx_valid` is disjoint from the current keys, the command
emits `Invalid`, sets `terminate`, and the stream ends with no further
events. -/
theorem C5_invalidate_suppression (ctx : ExternalWatcherContext)
    (inputs : List Input) (hterm : ctx.terminate = false) :
    ((∃ h, h ∈ ctx.views_keeping_tx_valid ∧ h ∈ ctx.views) →
      runFrom ctx (Input.command ControllerCommand.invalidateTransaction :: inputs) =
        runFrom ctx inputs) ∧
    ((∀ h, h ∈ ctx.views_keeping_tx_valid → h ∉ ctx.views) →
      runFrom ctx (Input.command ControllerCommand.invalidateTransaction :: inputs) =
        ([Status.invalid], RunState.live { ctx with terminate := true })) := by
  constructor
  · rintro ⟨h, ha, hb⟩
    simp [runFrom, hterm, stepOf,
      ExternalWatcherContext.handle_invalidate_of_not_disjoint ha hb]
  · intro hd
    simp [runFrom, hterm, stepOf, ExternalWatcherContext.handle_invalidate_of_disjoint hd,
      @runFrom_of_terminate { ctx with terminate := true } rfl inputs]

/-- Context of a watcher for transaction 0 that merged views 0 and 2, where
view 2 already reported `Ready` (so `ready_seen` is set and 2 is in
`views_keeping_tx_valid`). -/
def ctxReady2 : ExternalWatcherContext :=
  { ExternalWatcherContext.new 0 with
      views := [0, 2], ready_seen := true, views_keeping_tx_valid := [2] }

/-- C5 witness: in `ctxReady2' view 2 keeps the transaction valid, so an
`InvalidateTransaction` command is absorbed without emission. -/
theorem C5_invalidate_suppression_witness :
    ctxReady2.terminate = false ∧
    2 ∈ ctxReady2.views_keeping_tx_valid ∧ 2 ∈ ctxReady2.views ∧
    runFrom ctxReady2
        [Input.command ControllerCommand.invalidateTransaction,
          Input.viewEvent 2 Status.dropped] =
      runFrom ctxReady2 [Input.viewEvent 2 Status.dropped] :=
  ⟨rfl, by decide, by decide,
    (C5_invalidate_suppression ctxReady2 [Input.viewEvent 2 Status.dropped] rfl).1
      ⟨2, by decide, by decide⟩⟩

/-- C10: a `Future` or `Ready` event from view `h` always records `h` in
`views_keeping_tx_valid` — also when the emission is deduplicated (in
particular, when `ready_seen` is already set the event is suppressed) — and
`h` then blocks `InvalidateTransaction` as long as `h` is among the stream-map
keys. -/
theorem C10_duplicate_still_blocks_invalidate (ctx : ExternalWatcherContext)
    (h : BlockHash) (s : Status) (hs : s = Status.future ∨ s = Status.ready) :
    ∃ b ctx', ctx.handle s h = some (b, ctx') ∧
      h ∈ ctx'.views_keeping_tx_valid ∧
      ctx'.views = ctx.views ∧
      (s = Status.ready → ctx.ready_seen = true → b = false) ∧
      (h ∈ ctx'.views → ctx'.handle_invalidate_transaction = (false, ctx')) := by
  have hmem : ∀ s' : List Nat, h ∈ (hsInsert h s').1 := by
    intro s'
    unfold hsInsert
    split
    · assumption
    · exact List.mem_cons_self h s'
  rcases hs with rfl | rfl
  · unfold ExternalWatcherContext.handle
    dsimp only
    split
    · exact ⟨_, _, rfl, hmem _, rfl, fun hr => Status.noConfusion hr, fun hv =>
        ExternalWatcherContext.handle_invalidate_of_not_disjoint (hmem _) hv⟩
    · exact ⟨_, _, rfl, hmem _, rfl, fun hr => Status.noConfusion hr, fun hv =>
        ExternalWatcherContext.handle_invalidate_of_not_disjoint (hmem _) hv⟩
  · unfold ExternalWatcherContext.handle
    dsimp only
    split
    · next hr' =>
      exact ⟨_, _, rfl, hmem _, rfl, fun _ _ => rfl, fun hv =>
        ExternalWatcherContext.handle_invalidate_of_not_disjoint (hmem _) hv⟩
    · next hr' =>
      exact ⟨_, _, rfl, hmem _, rfl, fun _ hr => absurd hr hr', fun hv =>
        ExternalWatcherContext.handle_invalidate_of_not_disjoint (hmem _) hv⟩

/-- C10 witness: in `ctxReady2`, a duplicate `Ready` from view 0 is
suppressed, yet 0 is recorded in `views_keeping_tx_valid` and a subsequent
`InvalidateTransaction` is blocked. -/
theorem C10_duplicate_still_blocks_invalidate_witness :
    ∃ b ctx', ctxReady2.handle Status.ready 0 = some (b, ctx') ∧
      0 ∈ ctx'.views_keeping_tx_valid ∧
      ctx'.views = ctxReady2.views ∧
      (Status.ready = Status.ready → ctxReady2.ready_seen = true → b = false) ∧
      (0 ∈ ctx'.views → ctx'.handle_invalidate_transaction = (false, ctx')) :=
  C10_duplicate_still_blocks_invalidate ctxReady2 0 Status.ready (Or.inr rfl)

/-! ## Helper lemmas: watcher run invariants -/

theorem hsInsert_mem_self (x : Nat) (s : List Nat) : x ∈ (hsInsert x s).1 := by
  unfold hsInsert
  split
  · assumption
  · exact List.mem_cons_self x s

theorem hsInsert_mem_of_mem {y x : Nat} {s : List Nat} (h : y ∈ s) :
    y ∈ (hsInsert x s).1 := by
  unfold hsInsert
  split
  · exact h
  · exact List.mem_cons_of_mem x h

/-- Recognizer for `Status.ready`. -/
def isReady : Status → Bool
  | .ready => true
  | _ => false

/-- Recognizer for `Status.future`. -/
def isFuture : Status → Bool
  | .future => true
  | _ => false

/-- Recognizer for `Status.broadcast _`. -/
def isBroadcast : Status → Bool
  | .broadcast _ => true
  | _ => false

/-- Recognizer for `Status.inBlock b _` for the given block `b`. -/
def isInBlockOf (b : Nat) : Status → Bool
  | .inBlock b' _ => b' == b
  | _ => false

/-- The two terminal statuses of the external watcher stream. -/
def isTerminal : Status → Bool
  | .finalized _ _ => true
  | .invalid => true
  | _ => false

/-- `isTerminal` lifted to an optional emission. -/
def osTerminal : Option Status → Bool
  | some s => isTerminal s
  | none => false

theorem stepOf_spec (ctx : ExternalWatcherContext) (i : Input) (os : Option Status)
    (c' : ExternalWatcherContext) (hstep : stepOf ctx i = some (os, c')) :
    (ctx.ready_seen = true → c'.ready_seen = true ∧ os ≠ some Status.ready) ∧
    (ctx.future_seen = true → c'.future_seen = true) ∧
    ((ctx.ready_seen = true ∨ ctx.future_seen = true) → os ≠ some Status.future) ∧
    (ctx.broadcast_seen = true →
      c'.broadcast_seen = true ∧ ∀ p, os ≠ some (Status.broadcast p)) ∧
    (∀ x, x ∈ ctx.inblock →
      x ∈ c'.inblock ∧ ∀ idx, os ≠ some (Status.inBlock x idx)) ∧
    (os = some Status.ready → c'.ready_seen = true) ∧
    (os = some Status.future → c'.future_seen = true) ∧
    (∀ p, os = some (Status.broadcast p) → c'.broadcast_seen = true) ∧
    (∀ b idx, os = some (Status.inBlock b idx) → b ∈ c'.inblock) := by
  cases i with
  | command c =>
    cases c with
    | addView h =>
      simp only [stepOf, Option.some.injEq, Prod.mk.injEq] at hstep
      obtain ⟨rfl, rfl⟩ := hstep
      simp [ExternalWatcherContext.add_stream]
    | removeView h =>
      simp only [stepOf, Option.some.injEq, Prod.mk.injEq] at hstep
      obtain ⟨rfl, rfl⟩ := hstep
      simp [ExternalWatcherContext.remove_view]
    | invalidateTransaction =>
      by_cases hd :
        ExternalWatcherContext.disjointB ctx.views_keeping_tx_valid ctx.views = true
      · simp only [stepOf, ExternalWatcherContext.handle_invalidate_transaction, hd,
          if_true, Option.some.injEq, Prod.mk.injEq] at hstep
        obtain ⟨rfl, rfl⟩ := hstep
        simp
      · simp only [stepOf, ExternalWatcherContext.handle_invalidate_transaction, hd,
          if_false, Option.some.injEq, Prod.mk.injEq] at hstep
        obtain ⟨rfl, rfl⟩ := hstep
        simp
    | finalizeTransaction b idx =>
      simp only [stepOf, Option.some.injEq, Prod.mk.injEq] at hstep
      obtain ⟨rfl, rfl⟩ := hstep
      simp
  | viewEvent h s =>
    cases s with
    | future =>
      by_cases hc : (ctx.ready_seen || ctx.future_seen) = true
      · simp only [stepOf, ExternalWatcherContext.handle, hc, if_true,
          Option.some.injEq, Prod.mk.injEq] at hstep
        obtain ⟨rfl, rfl⟩ := hstep
        simp_all
      · simp only [stepOf, ExternalWatcherContext.handle, hc, if_false,
          Option.some.injEq, Prod.mk.injEq] at hstep
        obtain ⟨rfl, rfl⟩ := hstep
        rw [Bool.or_eq_true, not_or, Bool.not_eq_true, Bool.not_eq_true] at hc
        simp_all
    | ready =>
      by_cases hc : ctx.ready_seen = true
      · simp only [stepOf, ExternalWatcherContext.handle, hc, if_true,
          Option.some.injEq, Prod.mk.injEq] at hstep
        obtain ⟨rfl, rfl⟩ := hstep
        simp_all
      · simp only [stepOf, ExternalWatcherContext.handle, hc, if_false,
          Option.some.injEq, Prod.mk.injEq] at hstep
        obtain ⟨rfl, rfl⟩ := hstep
        simp_all
    | broadcast p =>
      by_cases hb : ctx.broadcast_seen = true
      · simp only [stepOf, ExternalWatcherContext.handle, hb, Bool.not_true,
          Bool.false_eq_true, if_false, Option.some.injEq, Prod.mk.injEq] at hstep
        obtain ⟨rfl, rfl⟩ := hstep
        simp_all
      · rw [Bool.not_eq_true] at hb
        simp only [stepOf, ExternalWatcherContext.handle, hb, Bool.not_false,
          if_true, Option.some.injEq, Prod.mk.injEq] at hstep
        obtain ⟨rfl, rfl⟩ := hstep
        simp_all
    | inBlock b idx =>
      by_cases hbm : b ∈ ctx.inblock
      · simp only [stepOf, ExternalWatcherContext.handle, hsInsert, hbm, if_true,
          Option.some.injEq, Prod.mk.injEq] at hstep
        obtain ⟨rfl, rfl⟩ := hstep
        refine ⟨by simp, by simp, by simp, by simp, ?_, by simp, by simp, by simp, by simp⟩
        intro x hx
        exact ⟨hx, by simp⟩
      · simp only [stepOf, ExternalWatcherContext.handle, hsInsert, hbm, if_false,
          Option.some.injEq, Prod.mk.injEq] at hstep
        obtain ⟨rfl, rfl⟩ := hstep
        refine ⟨by simp, by simp, by simp, by simp, ?_, by simp, by simp, by simp, ?_⟩
        · intro x hx
          refine ⟨List.mem_cons_of_mem b hx, fun idx' heq => ?_⟩
          have hbx : b = x ∧ idx = idx' := by simpa using heq
          exact hbm (hbx.1 ▸ hx)
        · intro b' idx' heq
          obtain ⟨rfl, rfl⟩ : b = b' ∧ idx = idx' := by simpa using heq
          exact List.mem_cons_self b ctx.inblock
    | retracted b =>
      simp only [stepOf, ExternalWatcherContext.handle] at hstep
      exact absurd hstep (by simp)
    | finalityTimeout b =>
      simp only [stepOf, ExternalWatcherContext.handle,
        Option.some.injEq, Prod.mk.injEq] at hstep
      obtain ⟨rfl, rfl⟩ := hstep
      simp
    | finalized b idx =>
      simp only [stepOf, ExternalWatcherContext.handle,
        Option.some.injEq, Prod.mk.injEq] at hstep
      obtain ⟨rfl, rfl⟩ := hstep
      simp
    | usurped u =>
      simp only [stepOf, ExternalWatcherContext.handle,
        Option.some.injEq, Prod.mk.injEq] at hstep
      obtain ⟨rfl, rfl⟩ := hstep
      simp
    | dropped =>
      simp only [stepOf, ExternalWatcherContext.handle,
        Option.some.injEq, Prod.mk.injEq] at hstep
      obtain ⟨rfl, rfl⟩ := hstep
      simp
    | invalid =>
      simp only [stepOf, ExternalWatcherContext.handle,
        Option.some.injEq, Prod.mk.injEq] at hstep
      obtain ⟨rfl, rfl⟩ := hstep
      simp

theorem runFrom_no_ready (inputs : List Input) :
    ∀ ctx : ExternalWatcherContext, ctx.ready_seen = true →
      ∀ s ∈ (runFrom ctx inputs).1, isReady s = false := by
  induction inputs with
  | nil => intro ctx _ s hs; simp [runFrom] at hs
  | cons i rest ih =>
    intro ctx hr
    rw [runFrom]
    by_cases ht : ctx.terminate = true
    · simp [ht]
    · rw [if_neg ht]
      cases hstep : stepOf ctx i with
      | none => simp
      | some p =>
        obtain ⟨os, c'⟩ := p
        obtain ⟨m1, m2, m3, m4, m5, p6, p7, p8, p9⟩ := stepOf_spec ctx i os c' hstep
        cases os with
        | none => exact ih c' (m1 hr).1
        | some s =>
          intro s' hs'
          rcases List.mem_cons.mp hs' with rfl | hmem
          · cases s' with
            | ready => exact absurd rfl (m1 hr).2
            | _ => rfl
          · exact ih c' (m1 hr).1 s' hmem

theorem runFrom_no_future (inputs : List Input) :
    ∀ ctx : ExternalWatcherContext,
      (ctx.ready_seen = true ∨ ctx.future_seen = true) →
      ∀ s ∈ (runFrom ctx inputs).1, isFuture s = false := by
  induction inputs with
  | nil => intro ctx _ s hs; simp [runFrom] at hs
  | cons i rest ih =>
    intro ctx hf
    rw [runFrom]
    by_cases ht : ctx.terminate = true
    · simp [ht]
    · rw [if_neg ht]
      cases hstep : stepOf ctx i with
      | none => simp
      | some p =>
        obtain ⟨os, c'⟩ := p
        obtain ⟨m1, m2, m3, m4, m5, p6, p7, p8, p9⟩ := stepOf_spec ctx i os c' hstep
        have hf' : c'.ready_seen = true ∨ c'.future_seen = true := by
          rcases hf with hr | hfu
          · exact Or.inl (m1 hr).1
          · exact Or.inr (m2 hfu)
        cases os with
        | none => exact ih c' hf'
        | some s =>
          intro s' hs'
          rcases List.mem_cons.mp hs' with rfl | hmem
          · cases s' with
            | future => exact absurd rfl (m3 hf)
            | _ => rfl
          · exact ih c' hf' s' hmem

theorem runFrom_no_broadcast (inputs : List Input) :
    ∀ ctx : ExternalWatcherContext, ctx.broadcast_seen = true →
      ∀ s ∈ (runFrom ctx inputs).1, isBroadcast s = false := by
  induction inputs with
  | nil => intro ctx _ s hs; simp [runFrom] at hs
  | cons i rest ih =>
    intro ctx hb
    rw [runFrom]
    by_cases ht : ctx.terminate = true
    · simp [ht]
    · rw [if_neg ht]
      cases hstep : stepOf ctx i with
      | none => simp
      | some p =>
        obtain ⟨os, c'⟩ := p
        obtain ⟨m1, m2, m3, m4, m5, p6, p7, p8, p9⟩ := stepOf_spec ctx i os c' hstep
        cases os with
        | none => exact ih c' (m4 hb).1
        | some s =>
          intro s' hs'
          rcases List.mem_cons.mp hs' with rfl | hmem
          · cases s' with
            | broadcast q => exact absurd rfl ((m4 hb).2 q)
            | _ => rfl
          · exact ih c' (m4 hb).1 s' hmem

theorem runFrom_no_inblock (inputs : List Input) (b : Nat) :
    ∀ ctx : ExternalWatcherContext, b ∈ ctx.inblock →
      ∀ s ∈ (runFrom ctx inputs).1, isInBlockOf b s = false := by
  induction inputs with
  | nil => intro ctx _ s hs; simp [runFrom] at hs
  | cons i rest ih =>
    intro ctx hbm
    rw [runFrom]
    by_cases ht : ctx.terminate = true
    · simp [ht]
    · rw [if_neg ht]
      cases hstep : stepOf ctx i with
      | none => simp
      | some p =>
        obtain ⟨os, c'⟩ := p
        obtain ⟨m1, m2, m3, m4, m5, p6, p7, p8, p9⟩ := stepOf_spec ctx i os c' hstep
        cases os with
        | none => exact ih c' (m5 b hbm).1
        | some s =>
          intro s' hs'
          rcases List.mem_cons.mp hs' with rfl | hmem
          · cases s' with
            | inBlock b' i' =>
              simp only [isInBlockOf, beq_eq_false_iff_ne, ne_eq]
              intro hbb
              subst hbb
              exact absurd rfl ((m5 b' hbm).2 i')
            | _ => rfl
          · exact ih c' (m5 b hbm).1 s' hmem

theorem runFrom_countP_ready_le_one (inputs : List Input) :
    ∀ ctx : ExternalWatcherContext, (runFrom ctx inputs).1.countP isReady ≤ 1 := by
  induction inputs with
  | nil => intro ctx; simp [runFrom]
  | cons i rest ih =>
    intro ctx
    rw [runFrom]
    by_cases ht : ctx.terminate = true
    · simp [ht]
    · rw [if_neg ht]
      cases hstep : stepOf ctx i with
      | none => simp
      | some p =>
        obtain ⟨os, c'⟩ := p
        obtain ⟨m1, m2, m3, m4, m5, p6, p7, p8, p9⟩ := stepOf_spec ctx i os c' hstep
        cases os with
        | none => exact ih c'
        | some s =>
          rw [List.countP_cons]
          by_cases hrs : isReady s = true
          · have hsr : s = Status.ready := by
              cases s <;> simp_all [isReady]
            subst hsr
            have h0 : (runFrom c' rest).1.countP isReady = 0 :=
              List.countP_eq_zero.mpr
                (fun a ha => by simp [runFrom_no_ready rest c' (p6 rfl) a ha])
            simp [h0, hrs]
          · simp only [hrs, if_false]
            simpa using ih c'

theorem runFrom_countP_future_le_one (inputs : List Input) :
    ∀ ctx : ExternalWatcherContext, (runFrom ctx inputs).1.countP isFuture ≤ 1 := by
  induction inputs with
  | nil => intro ctx; simp [runFrom]
  | cons i rest ih =>
    intro ctx
    rw [runFrom]
    by_cases ht : ctx.terminate = true
    · simp [ht]
    · rw [if_neg ht]
      cases hstep : stepOf ctx i with
      | none => simp
      | some p =>
        obtain ⟨os, c'⟩ := p
        obtain ⟨m1, m2, m3, m4, m5, p6, p7, p8, p9⟩ := stepOf_spec ctx i os c' hstep
        cases os with
        | none => exact ih c'
        | some s =>
          rw [List.countP_cons]
          by_cases hrs : isFuture s = true
          · have hsr : s = Status.future := by
              cases s <;> simp_all [isFuture]
            subst hsr
            have h0 : (runFrom c' rest).1.countP isFuture = 0 :=
              List.countP_eq_zero.mpr
                (fun a ha => by
                  simp [runFrom_no_future rest c' (Or.inr (p7 rfl)) a ha])
            simp [h0, hrs]
          · simp only [hrs, if_false]
            simpa using ih c'

theorem runFrom_countP_broadcast_le_one (inputs : List Input) :
    ∀ ctx : ExternalWatcherContext, (runFrom ctx inputs).1.countP isBroadcast ≤ 1 := by
  induction inputs with
  | nil => intro ctx; simp [runFrom]
  | cons i rest ih =>
    intro ctx
    rw [runFrom]
    by_cases ht : ctx.terminate = true
    · simp [ht]
    · rw [if_neg ht]
      cases hstep : stepOf ctx i with
      | none => simp
      | some p =>
        obtain ⟨os, c'⟩ := p
        obtain ⟨m1, m2, m3, m4, m5, p6, p7, p8, p9⟩ := stepOf_spec ctx i os c' hstep
        cases os with
        | none => exact ih c'
        | some s =>
          rw [List.countP_cons]
          by_cases hrs : isBroadcast s = true
          · obtain ⟨q, hsq⟩ : ∃ q, s = Status.broadcast q := by
              cases s <;> simp_all [isBroadcast]
            subst hsq
            have h0 : (runFrom c' rest).1.countP isBroadcast = 0 :=
              List.countP_eq_zero.mpr
                (fun a ha => by simp [runFrom_no_broadcast rest c' (p8 q rfl) a ha])
            simp [h0, hrs]
          · simp only [hrs, if_false]
            simpa using ih c'

theorem runFrom_countP_inblock_le_one (inputs : List Input) (b : Nat) :
    ∀ ctx : ExternalWatcherContext, (runFrom ctx inputs).1.countP (isInBlockOf b) ≤ 1 := by
  induction inputs with
  | nil => intro ctx; simp [runFrom]
  | cons i rest ih =>
    intro ctx
    rw [runFrom]
    by_cases ht : ctx.terminate = true
    · simp [ht]
    · rw [if_neg ht]
      cases hstep : stepOf ctx i with
      | none => simp
      | some p =>
        obtain ⟨os, c'⟩ := p
        obtain ⟨m1, m2, m3, m4, m5, p6, p7, p8, p9⟩ := stepOf_spec ctx i os c' hstep
        cases os with
        | none => exact ih c'
        | some s =>
          rw [List.countP_cons]
          by_cases hrs : isInBlockOf b s = true
          · obtain ⟨idx, hsq⟩ : ∃ idx, s = Status.inBlock b idx := by
              cases s with
              | inBlock b' i' =>
                refine ⟨i', ?_⟩
                simp only [isInBlockOf, beq_iff_eq] at hrs
                rw [hrs]
              | _ => simp_all [isInBlockOf]
            subst hsq
            have h0 : (runFrom c' rest).1.countP (isInBlockOf b) = 0 :=
              List.countP_eq_zero.mpr
                (fun a ha => by simp [runFrom_no_inblock rest b c' (p9 b idx rfl) a ha])
            simp [h0, hrs]
          · simp only [hrs, if_false]
            simpa using ih c'

/-- An output trace never contains a `Future` after a `Ready`. -/
def noFutureAfterReady : List Status → Bool
  | [] => true
  | s :: rest =>
      (if isReady s then !(rest.any isFuture) else true) && noFutureAfterReady rest

theorem runFrom_noFutureAfterReady (inputs : List Input) :
    ∀ ctx : ExternalWatcherContext,
      noFutureAfterReady (runFrom ctx inputs).1 = true := by
  induction inputs with
  | nil => intro ctx; simp [runFrom, noFutureAfterReady]
  | cons i rest ih =>
    intro ctx
    rw [runFrom]
    by_cases ht : ctx.terminate = true
    · simp [ht, noFutureAfterReady]
    · rw [if_neg ht]
      cases hstep : stepOf ctx i with
      | none => simp [noFutureAfterReady]
      | some p =>
        obtain ⟨os, c'⟩ := p
        obtain ⟨m1, m2, m3, m4, m5, p6, p7, p8, p9⟩ := stepOf_spec ctx i os c' hstep
        cases os with
        | none => exact ih c'
        | some s =>
          show noFutureAfterReady (s :: (runFrom c' rest).1) = true
          rw [noFutureAfterReady]
          rw [Bool.and_eq_true]
          refine ⟨?_, ih c'⟩
          by_cases hrs : isReady s = true
          · have hsr : s = Status.ready := by
              cases s <;> simp_all [isReady]
            subst hsr
            have hnf : ∀ a ∈ (runFrom c' rest).1, isFuture a = false :=
              runFrom_no_future rest c' (Or.inl (p6 rfl))
            have : (runFrom c' rest).1.any isFuture = false := by
              rw [List.any_eq_false]
              intro a ha
              simp [hnf a ha]
            simp [hrs, this]
          · simp [hrs]

/-- C6: through one external watcher context, from its initial state, any
input interleaving yields a merged output containing `Ready` at most once,
`Future` at most once and never after a `Ready`, `Broadcast` at most once,
and `InBlock((b,_))` at most once per distinct block `b`. -/
theorem C6_dedup (t : Nat) (inputs : List Input) :
    (runFrom (ExternalWatcherContext.new t) inputs).1.countP isReady ≤ 1 ∧
    (runFrom (ExternalWatcherContext.new t) inputs).1.countP isFuture ≤ 1 ∧
    (runFrom (ExternalWatcherContext.new t) inputs).1.countP isBroadcast ≤ 1 ∧
    (∀ b, (runFrom (ExternalWatcherContext.new t) inputs).1.countP (isInBlockOf b) ≤ 1) ∧
    noFutureAfterReady (runFrom (ExternalWatcherContext.new t) inputs).1 = true :=
  ⟨runFrom_countP_ready_le_one inputs _,
    runFrom_countP_future_le_one inputs _,
    runFrom_countP_broadcast_le_one inputs _,
    fun b => runFrom_countP_inblock_le_one inputs b _,
    runFrom_noFutureAfterReady inputs _⟩

theorem stepOf_terminate (ctx : ExternalWatcherContext) (i : Input) (os : Option Status)
    (c' : ExternalWatcherContext) (hstep : stepOf ctx i = some (os, c'))
    (hterm : ctx.terminate = false) : c'.terminate = osTerminal os := by
  cases i with
  | command c =>
    cases c with
    | addView h =>
      simp only [stepOf, Option.some.injEq, Prod.mk.injEq] at hstep
      obtain ⟨rfl, rfl⟩ := hstep
      simpa [ExternalWatcherContext.add_stream, osTerminal] using hterm
    | removeView h =>
      simp only [stepOf, Option.some.injEq, Prod.mk.injEq] at hstep
      obtain ⟨rfl, rfl⟩ := hstep
      simpa [ExternalWatcherContext.remove_view, osTerminal] using hterm
    | invalidateTransaction =>
      by_cases hd :
        ExternalWatcherContext.disjointB ctx.views_keeping_tx_valid ctx.views = true
      · simp only [stepOf, ExternalWatcherContext.handle_invalidate_transaction, hd,
          if_true, Option.some.injEq, Prod.mk.injEq] at hstep
        obtain ⟨rfl, rfl⟩ := hstep
        simp [osTerminal, isTerminal]
      · simp only [stepOf, ExternalWatcherContext.handle_invalidate_transaction, hd,
          if_false, Option.some.injEq, Prod.mk.injEq] at hstep
        obtain ⟨rfl, rfl⟩ := hstep
        simpa [osTerminal] using hterm
    | finalizeTransaction b idx =>
      simp only [stepOf, Option.some.injEq, Prod.mk.injEq] at hstep
      obtain ⟨rfl, rfl⟩ := hstep
      simp [osTerminal, isTerminal]
  | viewEvent h s =>
    cases s with
    | future =>
      by_cases hc : (ctx.ready_seen || ctx.future_seen) = true
      · simp only [stepOf, ExternalWatcherContext.handle, hc, if_true,
          Option.some.injEq, Prod.mk.injEq] at hstep
        obtain ⟨rfl, rfl⟩ := hstep
        simpa [osTerminal] using hterm
      · simp only [stepOf, ExternalWatcherContext.handle, hc, if_false,
          Option.some.injEq, Prod.mk.injEq] at hstep
        obtain ⟨rfl, rfl⟩ := hstep
        simpa [osTerminal, isTerminal] using hterm
    | ready =>
      by_cases hc : ctx.ready_seen = true
      · simp only [stepOf, ExternalWatcherContext.handle, hc, if_true,
          Option.some.injEq, Prod.mk.injEq] at hstep
        obtain ⟨rfl, rfl⟩ := hstep
        simpa [osTerminal] using hterm
      · simp only [stepOf, ExternalWatcherContext.handle, hc, if_false,
          Option.some.injEq, Prod.mk.injEq] at hstep
        obtain ⟨rfl, rfl⟩ := hstep
        simpa [osTerminal, isTerminal] using hterm
    | broadcast p =>
      by_cases hb : ctx.broadcast_seen = true
      · simp only [stepOf, ExternalWatcherContext.handle, hb, Bool.not_true,
          Bool.false_eq_true, if_false, Option.some.injEq, Prod.mk.injEq] at hstep
        obtain ⟨rfl, rfl⟩ := hstep
        simpa [osTerminal] using hterm
      · rw [Bool.not_eq_true] at hb
        simp only [stepOf, ExternalWatcherContext.handle, hb, Bool.not_false,
          if_true, Option.some.injEq, Prod.mk.injEq] at hstep
        obtain ⟨rfl, rfl⟩ := hstep
        simpa [osTerminal, isTerminal] using hterm
    | inBlock b idx =>
      by_cases hbm : b ∈ ctx.inblock
      · simp only [stepOf, ExternalWatcherContext.handle, hsInsert, hbm, if_true,
          Option.some.injEq, Prod.mk.injEq] at hstep
        obtain ⟨rfl, rfl⟩ := hstep
        simpa [osTerminal] using hterm
      · simp only [stepOf, ExternalWatcherContext.handle, hsInsert, hbm, if_false,
          Option.some.injEq, Prod.mk.injEq] at hstep
        obtain ⟨rfl, rfl⟩ := hstep
        simpa [osTerminal, isTerminal] using hterm
    | retracted b =>
      simp only [stepOf, ExternalWatcherContext.handle] at hstep
      exact absurd hstep (by simp)
    | finalityTimeout b =>
      simp only [stepOf, ExternalWatcherContext.handle,
        Option.some.injEq, Prod.mk.injEq] at hstep
      obtain ⟨rfl, rfl⟩ := hstep
      simpa [osTerminal, isTerminal] using hterm
    | finalized b idx =>
      simp only [stepOf, ExternalWatcherContext.handle,
        Option.some.injEq, Prod.mk.injEq] at hstep
      obtain ⟨rfl, rfl⟩ := hstep
      simp [osTerminal, isTerminal]
    | usurped u =>
      simp only [stepOf, ExternalWatcherContext.handle,
        Option.some.injEq, Prod.mk.injEq] at hstep
      obtain ⟨rfl, rfl⟩ := hstep
      simpa [osTerminal] using hterm
    | dropped =>
      simp only [stepOf, ExternalWatcherContext.handle,
        Option.some.injEq, Prod.mk.injEq] at hstep
      obtain ⟨rfl, rfl⟩ := hstep
      simpa [osTerminal] using hterm
    | invalid =>
      simp only [stepOf, ExternalWatcherContext.handle,
        Option.some.injEq, Prod.mk.injEq] at hstep
      obtain ⟨rfl, rfl⟩ := hstep
      simpa [osTerminal] using hterm

/-- The trace's last element is terminal (`false` on the empty trace). -/
def lastIsTerminal : List Status → Bool
  | [] => false
  | s :: rest => if rest.isEmpty then isTerminal s else lastIsTerminal rest

/-- No terminal status occurs other than as the very last element. -/
def terminalOnlyLast : List Status → Bool
  | [] => true
  | s :: rest => if isTerminal s then rest.isEmpty else terminalOnlyLast rest

/-- The context carried by a final run state. -/
def ctxOfRun : RunState → ExternalWatcherContext
  | .live c => c
  | .panicked c => c

theorem runFrom_terminal_spec (inputs : List Input) :
    ∀ ctx : ExternalWatcherContext, ctx.terminate = false →
      terminalOnlyLast (runFrom ctx inputs).1 = true ∧
      (ctxOfRun (runFrom ctx inputs).2).terminate
        = lastIsTerminal (runFrom ctx inputs).1 := by
  induction inputs with
  | nil =>
    intro ctx hterm
    simpa [runFrom, terminalOnlyLast, lastIsTerminal, ctxOfRun] using hterm
  | cons i rest ih =>
    intro ctx hterm
    rw [runFrom, if_neg (by rw [hterm]; exact Bool.false_ne_true)]
    cases hstep : stepOf ctx i with
    | none => simpa [terminalOnlyLast, lastIsTerminal, ctxOfRun] using hterm
    | some p =>
      obtain ⟨os, c'⟩ := p
      have hct : c'.terminate = osTerminal os := stepOf_terminate ctx i os c' hstep hterm
      cases os with
      | none => exact ih c' hct
      | some s =>
        dsimp only
        by_cases hts : isTerminal s = true
        · have hctt : c'.terminate = true := by rw [hct]; simpa [osTerminal] using hts
          rw [runFrom_of_terminate hctt rest]
          constructor
          · simp [terminalOnlyLast, hts]
          · simp [ctxOfRun, lastIsTerminal, hts, hctt]
        · have hctf : c'.terminate = false := by
            rw [hct]
            simpa [osTerminal] using hts
          obtain ⟨ih1, ih2⟩ := ih c' hctf
          constructor
          · show terminalOnlyLast (s :: (runFrom c' rest).1) = true
            rw [terminalOnlyLast, if_neg (by simpa using hts)]
            exact ih1
          · show (ctxOfRun (runFrom c' rest).2).terminate
              = lastIsTerminal (s :: (runFrom c' rest).1)
            rw [lastIsTerminal]
            cases hout : (runFrom c' rest).1 with
            | nil =>
              rw [hout] at ih2
              simp only [hout, List.isEmpty_nil, if_true]
              rw [ih2]
              simp [lastIsTerminal]
              simpa using hts
            | cons o os' =>
              rw [hout] at ih2
              simpa [List.isEmpty_cons] using ih2

/-- C7: from the initial watcher context, every terminal status (`Finalized`
or `Invalid`) in the merged output is its last element, the final `terminate`
flag is set exactly when the output ends in a terminal status, and a
terminated context yields no further events (the unfold returns `None`). -/
theorem C7_terminal_monotonicity (t : Nat) (inputs : List Input) :
    terminalOnlyLast (runFrom (ExternalWatcherContext.new t) inputs).1 = true ∧
    (ctxOfRun (runFrom (ExternalWatcherContext.new t) inputs).2).terminate
      = lastIsTerminal (runFrom (ExternalWatcherContext.new t) inputs).1 ∧
    runFrom { ExternalWatcherContext.new t with terminate := true } inputs
      = ([], RunState.live { ExternalWatcherContext.new t with terminate := true }) :=
  ⟨(runFrom_terminal_spec inputs _ rfl).1,
    (runFrom_terminal_spec inputs _ rfl).2,
    runFrom_of_terminate rfl inputs⟩

/-! ## Helper lemmas: mempool association-list reasoning -/

theorem alookup_none_of_not_mem_keys (k : Nat) :
    ∀ m : MempoolMap, k ∉ m.map Prod.fst → alookup k m = none := by
  intro m
  induction m with
  | nil => intro _; rfl
  | cons p rest ih =>
    obtain ⟨k', v⟩ := p
    intro hk
    rw [List.map_cons, List.mem_cons, not_or] at hk
    rw [alookup, if_neg hk.1]
    exact ih hk.2

theorem alookup_filter_notmem (hs : List Nat) (k : Nat) :
    ∀ m : MempoolMap,
      alookup k (m.filter (fun p => decide (p.1 ∉ hs)))
        = if k ∉ hs then alookup k m else none := by
  intro m
  induction m with
  | nil =>
    simp only [List.filter_nil]
    rw [alookup]
    exact (ite_self _).symm
  | cons p rest ih =>
    obtain ⟨k', v⟩ := p
    rw [List.filter_cons]
    by_cases hf : k' ∈ hs
    · rw [if_neg (by simp [hf])]
      rw [ih, alookup]
      by_cases hk : k = k'
      · subst hk
        simp [hf]
      · rw [if_neg hk]
    · rw [if_pos (by simp [hf])]
      rw [alookup, alookup]
      by_cases hk : k = k'
      · subst hk
        simp [hf]
      · rw [if_neg hk, if_neg hk, ih]

theorem alookup_map_setva (n : Nat) (bk : List Nat) (k : Nat) :
    ∀ m : MempoolMap,
      alookup k
          (m.map (fun p =>
            if p.1 ∈ bk then (p.1, { p.2 with validated_at := n }) else p))
        = if k ∈ bk then
            (alookup k m).map (fun e => { e with validated_at := n })
          else alookup k m := by
  intro m
  induction m with
  | nil =>
    simp only [List.map_nil]
    rw [alookup]
    simp [ite_self]
  | cons p rest ih =>
    obtain ⟨k', v⟩ := p
    rw [List.map_cons]
    by_cases hb : k' ∈ bk
    · rw [if_pos hb]
      rw [alookup, alookup]
      by_cases hk : k = k'
      · subst hk
        simp [hb]
      · rw [if_neg hk, if_neg hk, ih]
    · rw [if_neg hb]
      rw [alookup, alookup]
      by_cases hk : k = k'
      · subst hk
        simp [hb]
      · rw [if_neg hk, if_neg hk, ih]

theorem foldl_remove_eq_filter :
    ∀ (hs : List Nat) (m : MempoolMap),
      hs.foldl (fun acc i => acc.filter (fun p => p.1 ≠ i)) m
        = m.filter (fun p => decide (p.1 ∉ hs)) := by
  intro hs
  induction hs with
  | nil =>
    intro m
    rw [List.foldl_nil]
    have hfun : (fun p : Nat × TxInMemPool => decide (p.1 ∉ ([] : List Nat)))
        = fun _ => true := funext fun p => by simp
    rw [hfun, List.filter_true]
  | cons h hs ih =>
    intro m
    rw [List.foldl_cons, ih, List.filter_filter]
    have hfun : (fun p : Nat × TxInMemPool =>
          decide (p.1 ∉ hs) && decide (p.1 ≠ h))
        = fun p => decide (p.1 ∉ h :: hs) := by
      funext p
      by_cases h1 : p.1 = h <;> by_cases h2 : p.1 ∈ hs <;> simp [h1, h2]
    rw [← hfun]

theorem alookup_filter_val_none {k : Nat} {m : MempoolMap}
    (q : Nat × TxInMemPool → Bool) (hk : k ∉ m.map Prod.fst) :
    alookup k (m.filter q) = none := by
  apply alookup_none_of_not_mem_keys
  intro hmem
  obtain ⟨p, hp, hfst⟩ := List.mem_map.mp hmem
  exact hk (List.mem_map.mpr ⟨p, List.mem_of_mem_filter hp, hfst⟩)

/-- C4 (amended): after `purge_transactions(finalized)`, a surviving entry
that was selected into the revalidation batch has
`validated_at = finalized.number` and every batch verdict for its hash was
`Ok(_)` or `Invalid(Future)`; a surviving entry outside the batch is exactly
the original entry, unchanged. -/
theorem C4_revalidation_policy (api : ChainApiModel) (l : ListenerState)
    (fb : HashAndNumber) (m : MempoolMap) (h : TxHash) (e : TxInMemPool)
    (hsurv : alookup h (TxMemPool.purge_transactions api l fb m).transactions = some e) :
    (h ∈ (TxMemPool.revalidationInput fb m).map Prod.fst →
      e.validated_at = fb.number ∧
      ∀ e₀, (h, e₀) ∈ TxMemPool.revalidationInput fb m →
        TxMemPool.mempoolEvicts (api.validate fb.hash e₀.source e₀.tx) = false) ∧
    (h ∉ (TxMemPool.revalidationInput fb m).map Prod.fst →
      alookup h m = some e) := by
  simp only [TxMemPool.purge_transactions, TxMemPool.revalidate] at hsurv
  rw [foldl_remove_eq_filter, alookup_filter_notmem] at hsurv
  split_ifs at hsurv with hin
  · rw [alookup_map_setva] at hsurv
    constructor
    · intro hbk
      rw [if_pos hbk] at hsurv
      rw [Option.map_eq_some'] at hsurv
      obtain ⟨e₀x, hlk, he⟩ := hsurv
      subst he
      refine ⟨rfl, ?_⟩
      intro e₀ hmem
      by_contra hev
      rw [Bool.not_eq_false] at hev
      apply hin
      refine List.mem_map.mpr ⟨(h, api.validate fb.hash e₀.source e₀.tx), ?_, rfl⟩
      refine List.mem_filter.mpr ⟨List.mem_map.mpr ⟨(h, e₀), hmem, rfl⟩, ?_⟩
      exact hev
    · intro hnbk
      rw [if_neg hnbk] at hsurv
      exact hsurv

/-- C4 witness: a never-revalidated valid transaction is selected, survives
with `validated_at` bumped to the finalized number, and the amended policy
holds at it. -/
theorem C4_revalidation_policy_witness :
    (alookup 3
        (TxMemPool.purge_transactions apiValid listenerEmpty fb11 poolUnwatched3).transactions
      = some ⟨false, 3, Source.external, 11⟩) ∧
    ((3 ∈ (TxMemPool.revalidationInput fb11 poolUnwatched3).map Prod.fst →
        (⟨false, 3, Source.external, 11⟩ : TxInMemPool).validated_at = fb11.number ∧
        ∀ e₀, (3, e₀) ∈ TxMemPool.revalidationInput fb11 poolUnwatched3 →
          TxMemPool.mempoolEvicts (apiValid.validate fb11.hash e₀.source e₀.tx) = false) ∧
      (3 ∉ (TxMemPool.revalidationInput fb11 poolUnwatched3).map Prod.fst →
        alookup 3 poolUnwatched3 = some ⟨false, 3, Source.external, 11⟩)) :=
  ⟨by decide,
    C4_revalidation_policy apiValid listenerEmpty fb11 poolUnwatched3 3 _ (by decide)⟩

/-- C3 (amended): an `Unknown` verdict is skipped by the classification loop
of `View::revalidate_later` — it contributes neither to `invalid_hashes` nor
to `revalidated` — but during `TxMemPool::revalidate` an `Unknown` verdict
puts the hash into the invalid set, so `purge_transactions` removes the entry
from the MP. -/
theorem C3_unknown_policy :
    (∀ (n : Nat) (pre post : List (ValidationResult × TxHash × ReadyTx))
        (h : TxHash) (e : ReadyTx) (c : Nat),
      View.classifyRevalidationResults n
          (pre ++ (ValidationResult.okUnknown c, h, e) :: post)
        = View.classifyRevalidationResults n (pre ++ post)) ∧
    (∀ (api : ChainApiModel) (fb : HashAndNumber) (m : MempoolMap)
        (h : TxHash) (e : TxInMemPool) (c : Nat),
      (h, e) ∈ TxMemPool.revalidationInput fb m →
      api.validate fb.hash e.source e.tx = ValidationResult.okUnknown c →
      h ∈ (TxMemPool.revalidate api fb m).invalid_hashes) := by
  constructor
  · intro n pre post h e c
    induction pre with
    | nil => rfl
    | cons x xs ih =>
      obtain ⟨res, hh, ee⟩ := x
      rw [List.cons_append, List.cons_append]
      simp only [View.classifyRevalidationResults, ih]
  · intro api fb m h e c hmem hval
    simp only [TxMemPool.revalidate]
    refine List.mem_map.mpr ⟨(h, api.validate fb.hash e.source e.tx), ?_, rfl⟩
    refine List.mem_filter.mpr ⟨List.mem_map.mpr ⟨(h, e), hmem, rfl⟩, ?_⟩
    show TxMemPool.mempoolEvicts (api.validate fb.hash e.source e.tx) = true
    rw [hval]
    rfl

/-- C3 witness: the batch member with an `Unknown` verdict lands in the
invalid set of the MP revalidation pass. -/
theorem C3_unknown_policy_witness :
    ((3, (⟨false, 3, Source.external, 0⟩ : TxInMemPool))
        ∈ TxMemPool.revalidationInput fb11 poolUnwatched3) ∧
    3 ∈ (TxMemPool.revalidate apiUnknown fb11 poolUnwatched3).invalid_hashes :=
  ⟨by decide,
    C3_unknown_policy.2 apiUnknown fb11 poolUnwatched3 3
      ⟨false, 3, Source.external, 0⟩ 0 (by decide) rfl⟩

/-- C8 (amended): re-submission of a transaction with the same hash always
replaces the mempool entry, whichever of the watched/unwatched paths the two
submissions used; the stored `watched` flag and source come from the later
submission. -/
theorem C8_resubmission_replaces (api : ChainApiModel) (s s' : Source) (xt : Tx)
    (m : MempoolMap) :
    alookup (api.hashOf xt)
        (TxMemPool.push_watched api s' xt (TxMemPool.push_unwatched api s xt m))
      = some (TxInMemPool.new_watched s' xt) ∧
    alookup (api.hashOf xt)
        (TxMemPool.push_unwatched api s' xt (TxMemPool.push_watched api s xt m))
      = some (TxInMemPool.new_unwatched s' xt) := by
  constructor <;>
    simp [TxMemPool.push_watched, TxMemPool.push_unwatched, mapInsert, alookup]

/-- C9: `remove_watched(xt)` removes exactly the entries whose body equals
`xt`, watched or not, and leaves every entry with a different body in place
(stated via lookup over a well-formed map). -/
theorem C9_remove_watched_semantics :
    ∀ (m : MempoolMap) (xt : Tx) (k : TxHash),
      (m.map Prod.fst).Nodup →
      alookup k (TxMemPool.remove_watched xt m)
        = (alookup k m).bind (fun e => if e.tx = xt then none else some e) := by
  intro m xt k
  induction m with
  | nil => intro _; rfl
  | cons p rest ih =>
    intro hnd
    obtain ⟨k', v⟩ := p
    rw [List.map_cons, List.nodup_cons] at hnd
    obtain ⟨hk', hnd'⟩ := hnd
    rw [TxMemPool.remove_watched, List.filter_cons]
    by_cases hvx : v.tx = xt
    · rw [if_neg (by simp [hvx])]
      by_cases hk : k = k'
      · subst hk
        rw [alookup, if_pos rfl]
        rw [alookup_filter_val_none _ hk']
        simp [hvx]
      · rw [alookup, if_neg hk]
        exact ih hnd'
    · rw [if_pos (by simp [hvx])]
      rw [alookup, alookup]
      by_cases hk : k = k'
      · subst hk
        rw [if_pos rfl, if_pos rfl]
        simp [hvx]
      · rw [if_neg hk, if_neg hk]
        exact ih hnd'

/-- Mempool with a watched and an unwatched entry sharing body 9, plus an
unrelated entry. -/
def poolMixed : MempoolMap :=
  [(1, ⟨true, 9, Source.external, 0⟩), (2, ⟨false, 9, Source.localTx, 0⟩),
    (4, ⟨false, 5, Source.external, 0⟩)]

/-- C9 witness: on `poolMixed`, removing body 9 drops both the watched and
the unwatched entry and keeps the entry with body 5. -/
theorem C9_remove_watched_semantics_witness :
    (poolMixed.map Prod.fst).Nodup ∧
    alookup 2 (TxMemPool.remove_watched 9 poolMixed)
      = (alookup 2 poolMixed).bind (fun e => if e.tx = 9 then none else some e) :=
  ⟨by decide, C9_remove_watched_semantics poolMixed 9 2 (by decide)⟩
